import Mathlib

/-!
Shallow embedding of `src/myshell.c` (a small interactive shell) and proofs
about its input-processing pipeline: tokenizer, variable expander, token
post-processor, built-in commands, process-launcher diagnostics and the
SIGCHLD reaper.

Strings are modelled as `List Char`; the process environment as an
association list from names to values; system calls (`chdir`, `waitpid`
status, `errno`) as explicit parameters or explicit state.
-/

/-- The double-quote character (ASCII 34), as toggled by the tokenizer. -/
def dquote : Char := Char.ofNat 34

/-- The process environment: an ordered list of name/value bindings,
as read by `getenv` and written by `setenv`. -/
abbrev Env := List (List Char × List Char)

/-- Model of libc `getenv`: the value of the first binding with the given
name, `none` when unset.  `getenv` applied to an empty name yields `NULL`
(POSIX), which the shell only ever reaches via a bare `$`. -/
def getenv (env : Env) (n : List Char) : Option (List Char) :=
  if n = [] then none
  else (env.find? (fun p => p.fst == n)).map (fun p => p.snd)

/-- Value of `getenv` with the C fallback `if (value == NULL) value = "";` applied
(`expand_variable` lines 237-239 of myshell.c). -/
def getenvD (env : Env) (n : List Char) : List Char :=
  (getenv env n).getD []

/-- Model of libc `setenv(name, value, 1)`: overwrite an existing binding
of the name, otherwise append a new one. -/
def setenvOverwrite (env : Env) (n v : List Char) : Env :=
  if env.any (fun p => p.fst == n) then
    env.map (fun p => if p.fst == n then (n, v) else p)
  else env ++ [(n, v)]

/-- Identifier characters accepted inside a `$NAME` reference
(`token[i] == '_' || isalnum(token[i])`, myshell.c line 232). -/
def isIdentChar (c : Char) : Bool := c = '_' || c.isAlphanum

/-- Core loop of `expand_variable` (myshell.c lines 226-267).  The second
argument is `none` while copying ordinary characters and `some acc` while
the inner `while` loop is accumulating a variable name after a `$` (the
accumulator holds the name reversed).  When a non-identifier character or
the end of the token is reached the collected name is looked up via
`getenv` (empty value when unset) and appended to the output. -/
def expandAux (env : Env) : List Char → Option (List Char) → List Char
  | [], none => []
  | [], some acc => getenvD env acc.reverse
  | c :: rest, none =>
      if c = '$' then expandAux env rest (some [])
      else c :: expandAux env rest none
  | c :: rest, some acc =>
      if isIdentChar c then expandAux env rest (some (c :: acc))
      else
        getenvD env acc.reverse ++
          (if c = '$' then expandAux env rest (some [])
           else c :: expandAux env rest none)

/-- Function `expand_variable` (myshell.c lines 215-269): replace every `$NAME`
reference in a token by the value of that environment variable. -/
def expand_variable (env : Env) (token : List Char) : List Char :=
  expandAux env token none

/-- Separator test of the tokenizer and of `strtok(temp, " \t")`:
space or tab. -/
def isSep (c : Char) : Bool := c = ' ' || c = '\t'

/-- Character loop of `parse_input` (myshell.c lines 176-206).  `cur` is the
`current_token` buffer, `inq` the `in_quotes` flag.  A double quote toggles
`inq` and is never copied; a space or tab outside quotes flushes the
current token when non-empty; every other character (including space and
tab inside quotes) is appended to the current token.  At end of input a
non-empty current token is flushed. -/
def parseAux : List Char → List Char → Bool → List (List Char)
  | [], cur, _ => if cur = [] then [] else [cur]
  | c :: rest, cur, inq =>
      if c = dquote then parseAux rest cur (!inq)
      else if isSep c && !inq then
        if cur = [] then parseAux rest [] inq
        else cur :: parseAux rest [] inq
      else parseAux rest (cur ++ [c]) inq

/-- Function `parse_input` (myshell.c lines 163-209): split an input line into
tokens on unquoted runs of spaces/tabs. -/
def parse_input (input : List Char) : List (List Char) :=
  parseAux input [] false

/-- The `strtok(temp, " \t")` loop of `process_tokens` (myshell.c lines
290-306): the maximal non-empty runs of non-separator characters, in
order.  The second argument is `none` between words and `some acc` while a
word is being accumulated (reversed). -/
def strtokAux : List Char → Option (List Char) → List (List Char)
  | [], none => []
  | [], some acc => [acc.reverse]
  | c :: rest, none =>
      if isSep c then strtokAux rest none
      else strtokAux rest (some [c])
  | c :: rest, some acc =>
      if isSep c then acc.reverse :: strtokAux rest none
      else strtokAux rest (some (c :: acc))

/-- All words produced by repeated `strtok` on separators space/tab. -/
def strtokAll (s : List Char) : List (List Char) := strtokAux s none

/-- Function `process_tokens` (myshell.c lines 275-324): expand each token; when the
expansion contains a space or tab, replace the token by the `strtok`
words of the expansion, otherwise keep the expansion as a single token. -/
def process_tokens (env : Env) : List (List Char) → List (List Char)
  | [] => []
  | t :: rest =>
      let expanded := expand_variable env t
      (if ' ' ∈ expanded ∨ '\t' ∈ expanded then strtokAll expanded
       else [expanded]) ++ process_tokens env rest

/-- Splitting on runs of spaces/tabs, collapsing consecutive separators,
stated independently via the library splitter: split at every separator
and drop the empty pieces.  Used as the specification-side description of
the post-processor re-split. -/
def splitRuns (s : List Char) : List (List Char) :=
  (s.splitOnP isSep).filter (fun w => w ≠ [])

/-- Specification-side description of the Token Post-Processor, following
the words of the spec: each token is expanded first, then re-split on runs
of spaces/tabs if and only if the expansion contains a space or tab, the
resulting tokens replacing the original token in encounter order. -/
def postprocessSpec (env : Env) (tokens : List (List Char)) : List (List Char) :=
  tokens.flatMap (fun t =>
    let expanded := expand_variable env t
    if ' ' ∈ expanded ∨ '\t' ∈ expanded then splitRuns expanded
    else [expanded])

/-- The `cd` branch of `execute_shell_builtin` (myshell.c lines 330-361).
`ch` models the `chdir` system call: from an attempted path it yields the
new working directory on success and `none` on failure; `home` is
`getenv("HOME")`; `arg` is `tokens[1]`.  Returns the new working
directory together with an optional `stderr` diagnostic (the `perror`
tag). -/
def builtin_cd (ch : List Char → Option (List Char)) (home : Option (List Char))
    (cwd : List Char) (arg : Option (List Char)) : List Char × Option (List Char) :=
  match arg with
  | none =>
      match ch (home.getD "/".toList) with
      | some c => (c, none)
      | none => (cwd, some "cd".toList)
  | some a =>
      if a = ['~'] then
        match ch (home.getD "/".toList) with
        | some c => (c, none)
        | none => (cwd, some "cd".toList)
      else if a.head? = some '~' then
        match home with
        | some h =>
            match ch (h ++ a.tail) with
            | some c => (c, none)
            | none => (cwd, some "cd".toList)
        | none => (cwd, some "HOME not set".toList)
      else
        match ch a with
        | some c => (c, none)
        | none => (cwd, some "cd".toList)

/-- Buffer building loop of the `echo` branch (myshell.c lines 365-374):
expanded arguments concatenated with a single space between consecutive
ones. -/
def echoBuild (env : Env) : List (List Char) → List Char
  | [] => []
  | [t] => expand_variable env t
  | t :: rest => expand_variable env t ++ ' ' :: echoBuild env rest

/-- The `echo` branch of `execute_shell_builtin` (myshell.c lines 362-378):
with at least one argument, print the space-joined expanded arguments and
a newline; with no argument print nothing at all. -/
def builtin_echo (env : Env) (args : List (List Char)) : Option (List Char) :=
  match args with
  | [] => none
  | _ => some (echoBuild env args ++ ['\n'])

/-- Test used to locate the first `=` of the `export` argument
(`strchr(tokens[1], '=')`). -/
def isNotEqSign (c : Char) : Bool := !(c == '=')

/-- The `export` branch of `execute_shell_builtin` (myshell.c lines 379-398):
split the argument at the first `=` and call `setenv(name, value, 1)`.
Returns the new environment and an optional `stderr` diagnostic.  A
missing argument or an argument without `=` reports an error and leaves
the environment unchanged; an empty name makes `setenv` fail with
`EINVAL` (POSIX), reported through `perror("export")`. -/
def builtin_export (env : Env) (arg : Option (List Char)) : Env × Option (List Char) :=
  match arg with
  | none => (env, some "export: missing argument".toList)
  | some a =>
      if '=' ∈ a then
        if a.takeWhile isNotEqSign = [] then (env, some "export".toList)
        else (setenvOverwrite env (a.takeWhile isNotEqSign)
          ((a.dropWhile isNotEqSign).tail), none)
      else (env, some "export: invalid argument".toList)

/-- Result of running one built-in command: possibly-changed environment
and working directory, the text printed to `stdout`, and an optional
`stderr` diagnostic. -/
structure BuiltinResult where
  env : Env
  cwd : List Char
  out : Option (List Char)
  err : Option (List Char)
  deriving DecidableEq

/-- Function `execute_shell_builtin` (myshell.c lines 329-399): dispatch on the
first token.  The argument tokens are used exactly as given — only the
`echo` branch runs the variable expander. -/
def execute_shell_builtin (ch : List Char → Option (List Char)) (env : Env)
    (cwd : List Char) : List (List Char) → BuiltinResult
  | [] => ⟨env, cwd, none, none⟩
  | t0 :: args =>
      if t0 = "cd".toList then
        let r := builtin_cd ch (getenv env "HOME".toList) cwd args.head?
        ⟨env, r.fst, none, r.snd⟩
      else if t0 = "echo".toList then
        ⟨env, cwd, builtin_echo env args, none⟩
      else if t0 = "export".toList then
        let r := builtin_export env args.head?
        ⟨r.fst, cwd, none, r.snd⟩
      else ⟨env, cwd, none, none⟩

/-- What the main loop does with one parsed input line (myshell.c lines
104-151): empty token list, `exit`, a built-in dispatched on the raw
tokenizer output, or an external command built from the post-processed
tokens with a trailing `&` stripped into a background flag. -/
inductive Dispatch where
  | empty : Dispatch
  | exitCmd : Dispatch
  | builtinCmd : List (List Char) → Dispatch
  | external : List (List Char) → Bool → Dispatch
  deriving DecidableEq

/-- Dispatch step of `shell` (myshell.c lines 104-151) for one input line:
tokenize, recognize `exit` and the built-ins on the raw tokens, and
otherwise post-process the tokens and extract the background flag. -/
def shell_dispatch (env : Env) (line : List Char) : Dispatch :=
  match parse_input line with
  | [] => Dispatch.empty
  | t0 :: rest =>
      if t0 = "exit".toList then Dispatch.exitCmd
      else if t0 = "cd".toList ∨ t0 = "echo".toList ∨ t0 = "export".toList then
        Dispatch.builtinCmd (t0 :: rest)
      else
        let pt := process_tokens env (t0 :: rest)
        if pt.getLast? = some "&".toList then Dispatch.external pt.dropLast true
        else Dispatch.external pt false

/-- Terminal status of a child process, as classified by
`WIFSIGNALED`/`WTERMSIG`: normal exit with a status code, or killed by a
signal. -/
inductive ChildStatus where
  | exited : Nat → ChildStatus
  | signaled : Nat → ChildStatus
  deriving DecidableEq

/-- The `stderr` diagnostic of the parent branch of `execute_command`
(myshell.c lines 417-427): for a foreground child whose awaited status
says it was killed by a signal, the message naming the signal number; in
every other case (normal exit, or background) no diagnostic. -/
def execute_command_diag (background : Bool) (status : ChildStatus) : Option (List Char) :=
  if background then none
  else
    match status with
    | ChildStatus.exited _ => none
    | ChildStatus.signaled s =>
        some ("Child terminated abnormally by signal ".toList ++
          Nat.toDigits 10 s ++ ['\n'])

/-- Ambient process state seen by the SIGCHLD handler: the `errno`
error indicator, the list of already-terminated children not yet reaped,
the contents of `log.txt`, and whether opening `log.txt` succeeds. -/
structure SysState where
  errno : Int
  pending : List Nat
  log : List (List Char)
  logOk : Bool
  deriving DecidableEq

/-- The log line written for each reaped child (myshell.c line 50). -/
def childLogMsg : List Char := "Child process was terminated\n".toList

/-- The `waitpid`/`open`/`write` loop of `on_child_exit` (myshell.c lines
46-55), recursing over the pending children.  Each successful `open`
appends the log line; a failed `open` leaves `errno` at `EACCES` (13);
when no child remains the final failing `waitpid` sets `errno` to
`ECHILD` (10). -/
def reapLoop (logOk : Bool) : List Nat → Int × List (List Char) → Int × List (List Char)
  | [], st => (10, st.snd)
  | _ :: rest, st =>
      if logOk then reapLoop logOk rest (st.fst, st.snd ++ [childLogMsg])
      else reapLoop logOk rest (13, st.snd)

/-- Function `on_child_exit` (myshell.c lines 41-57): save `errno`, reap every
terminated child while logging each one, restore `errno`. -/
def on_child_exit (s : SysState) : SysState :=
  let saved := s.errno
  let looped := reapLoop s.logOk s.pending (s.errno, s.log)
  { errno := saved, pending := [], log := looped.snd, logOk := s.logOk }

/-! ## Helper lemmas -/

theorem expandAux_none_no_dollar (env : Env) :
    ∀ t : List Char, '$' ∉ t → expandAux env t none = t := by
  intro t
  induction t with
  | nil => intro _; rfl
  | cons c rest ih =>
    intro h
    have hc : ¬ c = '$' := fun hc => h (hc ▸ List.mem_cons_self c rest)
    have hrest : '$' ∉ rest := fun hm => h (List.mem_cons_of_mem c hm)
    simp [expandAux, hc, ih hrest]

theorem expandAux_ident_scan (env : Env) :
    ∀ (name rest acc : List Char), (∀ c ∈ name, isIdentChar c = true) →
      expandAux env (name ++ rest) (some acc) = expandAux env rest (some (name.reverse ++ acc)) := by
  intro name
  induction name with
  | nil => intro rest acc _; simp
  | cons c name ih =>
    intro rest acc h
    have hc : isIdentChar c = true := h c (List.mem_cons_self c name)
    have h' : ∀ d ∈ name, isIdentChar d = true := fun d hd => h d (List.mem_cons_of_mem c hd)
    have h1 : expandAux env (c :: (name ++ rest)) (some acc) =
        expandAux env (name ++ rest) (some (c :: acc)) := by simp [expandAux, hc]
    show expandAux env (c :: (name ++ rest)) (some acc) = _
    rw [h1, ih rest (c :: acc) h', List.reverse_cons, List.append_assoc,
      List.singleton_append]

theorem expand_variable_ref_eq (env : Env) (name rest : List Char)
    (hname : ∀ c ∈ name, isIdentChar c = true)
    (hrest : ∀ c, rest.head? = some c → isIdentChar c = false) :
    expand_variable env ('$' :: (name ++ rest)) =
      getenvD env name ++ expand_variable env rest := by
  show expandAux env ('$' :: (name ++ rest)) none = _
  have h1 : expandAux env ('$' :: (name ++ rest)) none =
      expandAux env (name ++ rest) (some []) := by simp [expandAux]
  rw [h1, expandAux_ident_scan env name rest [] hname]
  cases rest with
  | nil => simp [expandAux, expand_variable]
  | cons c rest' =>
    have hc : isIdentChar c = false := hrest c rfl
    simp only [List.append_nil, expandAux, hc, Bool.false_eq_true, if_false,
      List.reverse_reverse, expand_variable]

theorem parseAux_tokens (input : List Char) :
    ∀ (cur : List Char) (inq : Bool), dquote ∉ cur →
      ∀ t ∈ parseAux input cur inq, t ≠ [] ∧ dquote ∉ t := by
  induction input with
  | nil =>
    intro cur inq hcur t ht
    by_cases h : cur = []
    · simp [parseAux, h] at ht
    · simp only [parseAux, if_neg h, List.mem_singleton] at ht
      exact ht ▸ ⟨h, hcur⟩
  | cons c rest ih =>
    intro cur inq hcur t ht
    unfold parseAux at ht
    by_cases h1 : c = dquote
    · rw [if_pos h1] at ht
      exact ih cur (!inq) hcur t ht
    · rw [if_neg h1] at ht
      by_cases h2 : (isSep c && !inq) = true
      · rw [if_pos h2] at ht
        by_cases h3 : cur = []
        · rw [if_pos h3] at ht
          exact ih [] inq (by simp) t ht
        · rw [if_neg h3] at ht
          rcases List.mem_cons.mp ht with rfl | ht'
          · exact ⟨h3, hcur⟩
          · exact ih [] inq (by simp) t ht'
      · rw [if_neg h2] at ht
        have hnotin : dquote ∉ cur ++ [c] := by
          intro hm
          rcases List.mem_append.mp hm with h | h
          · exact hcur h
          · exact h1 (List.mem_singleton.mp h).symm
        exact ih (cur ++ [c]) inq hnotin t ht

/-! ## Claims about the Tokenizer and the Variable Expander -/

theorem strtokAux_eq_splitOnP (s : List Char) :
    strtokAux s none = (s.splitOnP isSep).filter (fun w => w ≠ []) ∧
    ∀ acc, acc ≠ [] → strtokAux s (some acc) =
      ((s.splitOnP isSep).modifyHead (fun w => acc.reverse ++ w)).filter (fun w => w ≠ []) := by
  induction s with
  | nil =>
    refine ⟨by simp [strtokAux], ?_⟩
    intro acc hacc
    have : acc.reverse ≠ [] := by simpa using hacc
    simp [strtokAux, this]
  | cons c rest ih =>
    constructor
    · by_cases hc : isSep c = true
      · simp [strtokAux, hc, List.splitOnP_cons, ih.1]
      · have h2 := ih.2 [c] (by simp)
        simp only [strtokAux, hc, Bool.false_eq_true, if_false, h2,
          List.splitOnP_cons]
        congr 1
    · intro acc hacc
      have hrev : acc.reverse ≠ [] := by simpa using hacc
      by_cases hc : isSep c = true
      · simp [strtokAux, hc, List.splitOnP_cons, ih.1, hrev]
      · have h2 := ih.2 (c :: acc) (by simp)
        have hfun : (fun w => (c :: acc).reverse ++ w) =
            ((fun w => acc.reverse ++ w) ∘ List.cons c) := by
          funext w
          simp [List.reverse_cons, List.append_assoc]
        simp only [strtokAux, hc, Bool.false_eq_true, if_false, h2,
          List.splitOnP_cons, List.modifyHead_modifyHead, hfun]

theorem strtokAll_eq_splitRuns (s : List Char) : strtokAll s = splitRuns s :=
  (strtokAux_eq_splitOnP s).1

theorem process_tokens_eq_postprocessSpec (env : Env) (tokens : List (List Char)) :
    process_tokens env tokens = postprocessSpec env tokens := by
  induction tokens with
  | nil => rfl
  | cons t rest ih =>
    simp only [process_tokens, postprocessSpec, List.flatMap_cons] at *
    rw [ih, strtokAll_eq_splitRuns]

/-- Claim C1: the token post-processor expands each token and, exactly when
the expansion contains a space or tab, replaces it by the expansion split
on runs of spaces/tabs (consecutive separators collapsed), in encounter
order at the original position; an expansion without space or tab passes
through as one token, and overall order is preserved — the result is the
order-preserving concatenation described by `postprocessSpec`.  In
particular `$LIST` with `LIST=one two` becomes the two tokens `one`,
`two`. -/
theorem c1_post_processor :
    (∀ (env : Env) (tokens : List (List Char)),
        process_tokens env tokens = postprocessSpec env tokens)
    ∧ process_tokens [("LIST".toList, "one two".toList)] ["$LIST".toList] =
        ["one".toList, "two".toList] :=
  ⟨process_tokens_eq_postprocessSpec, by decide⟩

/-- Claim C9: a token containing no `$` character is mapped by the variable
expander to itself, character for character, whatever the environment. -/
theorem c9_expand_no_dollar_identity (env : Env) (t : List Char) (h : '$' ∉ t) :
    expand_variable env t = t :=
  expandAux_none_no_dollar env t h

/-- Witness for C9 at the token `abc` in the empty environment. -/
theorem c9_expand_no_dollar_identity_witness :
    '$' ∉ "abc".toList ∧ expand_variable [] "abc".toList = "abc".toList :=
  ⟨by decide, c9_expand_no_dollar_identity [] "abc".toList (by decide)⟩

/-- Claim C2: the variable expander replaces every `$` followed by a maximal
run of identifier characters by the environment value of that name (empty
when unset), copies every other character unchanged, and a `$` not
followed by an identifier character contributes an empty substitution;
in particular `$HOME/x` with `HOME=/root` expands to `/root/x` and
`$UNSET` to the empty string. -/
theorem c2_variable_expander :
    (∀ (env : Env) (name rest : List Char), (∀ c ∈ name, isIdentChar c = true) →
        (∀ c, rest.head? = some c → isIdentChar c = false) →
        expand_variable env ('$' :: (name ++ rest)) =
          getenvD env name ++ expand_variable env rest)
    ∧ (∀ (env : Env) (c : Char) (rest : List Char), c ≠ '$' →
        expand_variable env (c :: rest) = c :: expand_variable env rest)
    ∧ (∀ (env : Env) (rest : List Char),
        (∀ c, rest.head? = some c → isIdentChar c = false) →
        expand_variable env ('$' :: rest) = expand_variable env rest)
    ∧ expand_variable [("HOME".toList, "/root".toList)] "$HOME/x".toList = "/root/x".toList
    ∧ expand_variable [] "$UNSET".toList = [] := by
  refine ⟨expand_variable_ref_eq, ?_, ?_, by decide, by decide⟩
  · intro env c rest hc
    simp [expand_variable, expandAux, hc]
  · intro env rest hrest
    have h := expand_variable_ref_eq env [] rest (by simp) hrest
    simpa [getenvD, getenv] using h

/-- Witness for C2 at `$A/x` with `A=1`: the reference equation applies with
name `A` and remainder `/x`. -/
theorem c2_variable_expander_witness :
    expand_variable [("A".toList, "1".toList)] ('$' :: ("A".toList ++ "/x".toList)) =
      getenvD [("A".toList, "1".toList)] "A".toList ++
        expand_variable [("A".toList, "1".toList)] "/x".toList :=
  c2_variable_expander.1 [("A".toList, "1".toList)] "A".toList "/x".toList
    (by decide) (by decide)

/-- Claim C3: the tokenizer never produces an empty token, never copies a
double quote into a token, and tokenizes the line `a "b c" d` into exactly
the three tokens `a`, `b c`, `d` (spaces inside the quotes copied
literally, quotes dropped). -/
theorem c3_tokenizer :
    (∀ (input : List Char) (t : List Char), t ∈ parse_input input → t ≠ [] ∧ dquote ∉ t)
    ∧ parse_input ('a' :: ' ' :: dquote :: 'b' :: ' ' :: 'c' :: dquote :: ' ' :: 'd' :: []) =
        [['a'], ['b', ' ', 'c'], ['d']] :=
  ⟨fun input t ht => parseAux_tokens input [] false (by simp) t ht, by decide⟩

/-- Witness for C3: the first token of the example line is non-empty and
quote-free. -/
theorem c3_tokenizer_witness :
    ['a'] ≠ ([] : List Char) ∧ dquote ∉ ['a'] :=
  c3_tokenizer.1 ('a' :: ' ' :: dquote :: 'b' :: ' ' :: 'c' :: dquote :: ' ' :: 'd' :: [])
    ['a'] (by decide)

/-! ## Claims about the built-in commands -/

theorem echoBuild_eq_intercalate (env : Env) :
    ∀ args : List (List Char),
      echoBuild env args = List.intercalate [' '] (args.map (expand_variable env)) := by
  intro args
  induction args with
  | nil => simp [echoBuild, List.intercalate]
  | cons t rest ih =>
    cases rest with
    | nil => simp [echoBuild, List.intercalate, List.intersperse]
    | cons t' rest' =>
      simp only [echoBuild, ih, List.map_cons, List.intercalate,
        List.intersperse_cons_cons, List.flatten_cons]
      simp [List.append_assoc]

/-- Claim C6: `echo` expands each argument independently with the variable
expander (no post-processor re-split), prints the expansions joined by
single spaces followed by exactly one newline, and with no arguments
prints nothing at all. -/
theorem c6_echo (env : Env) :
    builtin_echo env [] = none
    ∧ (∀ args : List (List Char), args ≠ [] →
        builtin_echo env args =
          some (List.intercalate [' '] (args.map (expand_variable env)) ++ ['\n'])) := by
  refine ⟨rfl, ?_⟩
  intro args hargs
  cases args with
  | nil => exact absurd rfl hargs
  | cons t rest => simp [builtin_echo, echoBuild_eq_intercalate]

/-- Witness for C6: `echo $B x` with `B=bar`. -/
theorem c6_echo_witness :
    builtin_echo [("B".toList, "bar".toList)] ["$B".toList, "x".toList] =
      some (List.intercalate [' ']
        (["$B".toList, "x".toList].map (expand_variable [("B".toList, "bar".toList)])) ++
        ['\n']) :=
  (c6_echo [("B".toList, "bar".toList)]).2 ["$B".toList, "x".toList] (by decide)

theorem takeWhile_dropWhile_all_append (p : Char → Bool) :
    ∀ (xs ys : List Char), (∀ c ∈ xs, p c = true) →
      (∀ c, ys.head? = some c → p c = false) →
      (xs ++ ys).takeWhile p = xs ∧ (xs ++ ys).dropWhile p = ys := by
  intro xs
  induction xs with
  | nil =>
    intro ys _ hys
    cases ys with
    | nil => simp
    | cons c ys' =>
      have hc := hys c rfl
      simp [List.takeWhile_cons, List.dropWhile_cons, hc]
  | cons x xs ih =>
    intro ys hxs hys
    have hx : p x = true := hxs x (List.mem_cons_self x xs)
    have hih := ih ys (fun c hc => hxs c (List.mem_cons_of_mem x hc)) hys
    simp [List.takeWhile_cons, List.dropWhile_cons, hx, hih.1, hih.2]

theorem find?_env_cons_pos (n b : List Char) (l : Env) :
    ((n, b) :: l).find? (fun p => p.fst == n) = some (n, b) := by
  simp [List.find?]

theorem find?_env_cons_neg (n : List Char) (a : List Char × List Char) (l : Env)
    (ha : (a.fst == n) = false) :
    (a :: l).find? (fun p => p.fst == n) = l.find? (fun p => p.fst == n) := by
  simp [List.find?, ha]

theorem find_setenv_of_any (n v : List Char) :
    ∀ env : Env, env.any (fun p => p.fst == n) = true →
      (env.map (fun p => if p.fst == n then (n, v) else p)).find?
        (fun p => p.fst == n) = some (n, v) := by
  intro env
  induction env with
  | nil => intro h; simp at h
  | cons a env ih =>
    intro h
    rw [List.map_cons]
    cases ha : a.fst == n with
    | true =>
      rw [if_pos rfl]
      exact find?_env_cons_pos n v _
    | false =>
      rw [if_neg (by simp), find?_env_cons_neg n a _ ha]
      simp only [List.any_cons, ha, Bool.false_or] at h
      exact ih h

theorem find_setenv_of_not_any (n v : List Char) :
    ∀ env : Env, env.any (fun p => p.fst == n) = false →
      (env ++ [(n, v)]).find? (fun p => p.fst == n) = some (n, v) := by
  intro env
  induction env with
  | nil =>
    intro _
    rw [List.nil_append]
    exact find?_env_cons_pos n v []
  | cons a env ih =>
    intro h
    simp only [List.any_cons, Bool.or_eq_false_iff] at h
    rw [List.cons_append, find?_env_cons_neg n a _ h.1, ih h.2]

theorem getenv_setenvOverwrite_self (env : Env) (n v : List Char) (hn : n ≠ []) :
    getenv (setenvOverwrite env n v) n = some v := by
  unfold getenv setenvOverwrite
  rw [if_neg hn]
  cases hb : env.any (fun p => p.fst == n) with
  | true => rw [if_pos rfl, find_setenv_of_any n v env hb]; rfl
  | false =>
    rw [if_neg (by simp), find_setenv_of_not_any n v env hb]
    rfl

/-- Claim C4: `export` with no argument, or with an argument containing no
`=`, reports a usage error and leaves the environment unchanged; with an
argument `NAME=VALUE` it splits at the first `=` and sets the binding of
`NAME` to `VALUE`, which every later expansion of `$NAME` then
observes. -/
theorem c4_export (env : Env) :
    builtin_export env none = (env, some "export: missing argument".toList)
    ∧ (∀ a : List Char, '=' ∉ a →
        builtin_export env (some a) = (env, some "export: invalid argument".toList))
    ∧ (∀ n v : List Char, '=' ∉ n → n ≠ [] →
        builtin_export env (some (n ++ '=' :: v)) = (setenvOverwrite env n v, none)
        ∧ getenvD (setenvOverwrite env n v) n = v
        ∧ (n.all isIdentChar = true →
            expand_variable (setenvOverwrite env n v) ('$' :: n) = v)) := by
  refine ⟨rfl, ?_, ?_⟩
  · intro a ha
    simp [builtin_export, ha]
  · intro n v hn hne
    have hmem : '=' ∈ n ++ '=' :: v := List.mem_append.mpr (Or.inr (List.mem_cons_self _ _))
    have hall : ∀ c ∈ n, isNotEqSign c = true := by
      intro c hc
      have hcc : ¬ c = '=' := fun hcc => hn (hcc ▸ hc)
      simp [isNotEqSign, hcc]
    have hhead : ∀ c, ('=' :: v).head? = some c → isNotEqSign c = false := by
      intro c hc
      simp only [List.head?_cons, Option.some.injEq] at hc
      simp [isNotEqSign, ← hc]
    have hsplit := takeWhile_dropWhile_all_append isNotEqSign n ('=' :: v) hall hhead
    have hgd : getenvD (setenvOverwrite env n v) n = v := by
      simp [getenvD, getenv_setenvOverwrite_self env n v hne]
    refine ⟨?_, hgd, ?_⟩
    · simp only [builtin_export]
      rw [if_pos hmem, hsplit.1, hsplit.2, if_neg hne]
      rfl
    · intro hident
      have hname : ∀ c ∈ n, isIdentChar c = true := fun c hc =>
        List.all_eq_true.mp hident c hc
      have h := expand_variable_ref_eq (setenvOverwrite env n v) n []
        hname (fun c hc => by simp at hc)
      rw [List.append_nil] at h
      rw [h, hgd]
      simp [expand_variable, expandAux]

/-- Witness for C4: `export A=1` in the environment `B=2`, then `$A`
expands to `1`. -/
theorem c4_export_witness :
    builtin_export [("B".toList, "2".toList)] (some ("A".toList ++ '=' :: "1".toList)) =
      (setenvOverwrite [("B".toList, "2".toList)] "A".toList "1".toList, none)
    ∧ getenvD (setenvOverwrite [("B".toList, "2".toList)] "A".toList "1".toList)
        "A".toList = "1".toList
    ∧ expand_variable (setenvOverwrite [("B".toList, "2".toList)] "A".toList "1".toList)
        ('$' :: "A".toList) = "1".toList :=
  let h := (c4_export [("B".toList, "2".toList)]).2.2 "A".toList "1".toList
    (by decide) (by decide)
  ⟨h.1, h.2.1, h.2.2 (by decide)⟩

/-- Claim C5: whenever the `cd` built-in reports an error — in particular
for a target the `chdir` model rejects, and for an argument `~suffix`
when `HOME` is unset — the working directory is exactly what it was
before; the built-in always returns to the loop (the session
continues). -/
theorem c5_cd (ch : List Char → Option (List Char)) (home : Option (List Char))
    (cwd : List Char) :
    (∀ (arg : Option (List Char)) (cwd2 msg : List Char),
        builtin_cd ch home cwd arg = (cwd2, some msg) → cwd2 = cwd)
    ∧ (∀ rest : List Char, rest ≠ [] →
        builtin_cd ch none cwd (some ('~' :: rest)) = (cwd, some "HOME not set".toList))
    ∧ (∀ p : List Char, p.head? ≠ some '~' → ch p = none →
        builtin_cd ch home cwd (some p) = (cwd, some "cd".toList)) := by
  refine ⟨?_, ?_, ?_⟩
  · intro arg cwd2 msg h
    cases arg with
    | none =>
      simp only [builtin_cd] at h
      cases hch : ch (home.getD "/".toList) <;> rw [hch] at h <;> simp_all
    | some a =>
      simp only [builtin_cd] at h
      by_cases h1 : a = ['~']
      · rw [if_pos h1] at h
        cases hch : ch (home.getD "/".toList) <;> rw [hch] at h <;> simp_all
      · rw [if_neg h1] at h
        by_cases h2 : a.head? = some '~'
        · rw [if_pos h2] at h
          cases home with
          | none => simp_all
          | some hm =>
            cases hch : ch (hm ++ a.tail) <;> simp_all
        · rw [if_neg h2] at h
          cases hch : ch a <;> rw [hch] at h <;> simp_all
  · intro rest hrest
    have h1 : ¬ ('~' :: rest) = ['~'] := by simp [hrest]
    simp only [builtin_cd]
    rw [if_neg h1, if_pos (show ('~' :: rest).head? = some '~' from rfl)]
  · intro p h1 h2
    have hp : ¬ p = ['~'] := fun hh => h1 (hh ▸ rfl)
    simp only [builtin_cd]
    rw [if_neg hp, if_neg h1, h2]

/-- Witness for C5: `cd /x` when the `chdir` model rejects every path
leaves the working directory `/w` unchanged and reports the error. -/
theorem c5_cd_witness :
    builtin_cd (fun _ => none) (some "/h".toList) "/w".toList (some "/x".toList) =
      ("/w".toList, some "cd".toList) :=
  (c5_cd (fun _ => none) (some "/h".toList) "/w".toList).2.2 "/x".toList (by decide) rfl

/-! ## Claims about the launcher, the reaper and dispatch order -/

/-- Claim C7: the launcher produces a `stderr` diagnostic exactly when the
awaited foreground child was killed by a signal, the diagnostic names the
signal number, a normal exit with any status produces none, and a
background child never produces one. -/
theorem c7_launcher_diag :
    (∀ (bg : Bool) (st : ChildStatus),
        (execute_command_diag bg st).isSome = true ↔
          bg = false ∧ ∃ s, st = ChildStatus.signaled s)
    ∧ (∀ s : Nat, execute_command_diag false (ChildStatus.signaled s) =
        some ("Child terminated abnormally by signal ".toList ++ Nat.toDigits 10 s ++ ['\n']))
    ∧ (∀ c : Nat, execute_command_diag false (ChildStatus.exited c) = none)
    ∧ (∀ st : ChildStatus, execute_command_diag true st = none) := by
  refine ⟨?_, fun s => rfl, fun c => rfl, fun st => rfl⟩
  intro bg st
  cases bg <;> cases st <;> simp [execute_command_diag]

/-- Witness for C7: a foreground child killed by signal 9 yields exactly
the diagnostic naming 9. -/
theorem c7_launcher_diag_witness :
    execute_command_diag false (ChildStatus.signaled 9) =
      some ("Child terminated abnormally by signal ".toList ++ Nat.toDigits 10 9 ++ ['\n']) :=
  c7_launcher_diag.2.1 9

/-- Claim C8: the reaper leaves the error indicator `errno` with exactly
the value it had on entry, for every ambient state — any number of
pending children and whether or not the log file can be opened (the loop
body itself clobbers `errno`; the handler saves it on entry and restores
it before returning). -/
theorem c8_reaper_preserves_errno (s : SysState) :
    (on_child_exit s).errno = s.errno := rfl

/-- A model `chdir` under which exactly the directory `/root` exists. -/
def chRootOnly : List Char → Option (List Char) :=
  fun p => if p = "/root".toList then some p else none

/-- Claim C10: built-ins are dispatched on the raw tokenizer output before
the post-processor runs; `cd` and `export` use their argument literally
(`cd $HOME` attempts the literal directory `$HOME` and fails even though
`HOME=/root` names an existing directory, while `cd /root` succeeds;
`export A=$B` binds `A` to the literal `$B`); only `echo` expands its
arguments (`echo $B` with `B=bar` prints `bar`). -/
theorem c10_raw_dispatch :
    (∀ (env : Env) (line : List Char) (t0 : List Char) (rest : List (List Char)),
        parse_input line = t0 :: rest →
        (t0 = "cd".toList ∨ t0 = "echo".toList ∨ t0 = "export".toList) →
        shell_dispatch env line = Dispatch.builtinCmd (t0 :: rest))
    ∧ execute_shell_builtin chRootOnly [("HOME".toList, "/root".toList)] "/".toList
        ["cd".toList, "$HOME".toList] =
        ⟨[("HOME".toList, "/root".toList)], "/".toList, none, some "cd".toList⟩
    ∧ execute_shell_builtin chRootOnly [("HOME".toList, "/root".toList)] "/".toList
        ["cd".toList, "/root".toList] =
        ⟨[("HOME".toList, "/root".toList)], "/root".toList, none, none⟩
    ∧ getenvD (execute_shell_builtin chRootOnly [("B".toList, "bar".toList)] "/".toList
        ["export".toList, "A=$B".toList]).env "A".toList = "$B".toList
    ∧ (execute_shell_builtin chRootOnly [("B".toList, "bar".toList)] "/".toList
        ["echo".toList, "$B".toList]).out = some "bar\n".toList := by
  refine ⟨?_, by decide, by decide, by decide, by decide⟩
  intro env line t0 rest hparse hbuiltin
  unfold shell_dispatch
  rw [hparse]
  have hexit : ¬ t0 = "exit".toList := by
    rcases hbuiltin with h | h | h <;> subst h <;> decide
  simp only [if_neg hexit, if_pos hbuiltin]

/-- Witness for C10: the line `cd $HOME` is dispatched as the built-in with
its raw tokens. -/
theorem c10_raw_dispatch_witness :
    shell_dispatch [] "cd $HOME".toList =
      Dispatch.builtinCmd ["cd".toList, "$HOME".toList] :=
  c10_raw_dispatch.1 [] "cd $HOME".toList "cd".toList ["$HOME".toList]
    (by decide) (Or.inl rfl)
